import Mathlib

/-!
# Shallow embedding of `src/custom-style-interface.js`

The module under verification is the `CustomStyleInterface` class of the
webcomponents-polyfills repository: a registry of document-level style
providers with shared module-level callback hooks.

Modelling choices:

* JS objects (style elements and providers) live in an explicit heap
  `List Obj`; an object reference is its index (`Nat`).  The hidden
  markers `__seenByShadyCSS` / `__processedByShadyCSS` that the code
  stores on the provider objects themselves are the `seen` / `processed`
  fields of `Obj`.
* A provider either IS a style element (`hasGetStyle = false`) or exposes
  a `getStyle` method.  Invoking the method is modelled by reading the
  `getStyleResult` field (`none` models a null/undefined return); the host
  may mutate that field between calls, which models a getter whose result
  changes over time.
* The module-level variables `transformFn`, `validateFn`, `whenReady`
  and `readyPromise` are the fields of `Globals`, shared by every
  `Registry` instance by construction (they are threaded separately
  from the per-instance `Registry` state).
* Callbacks are abstract function identifiers (`Nat`); invoking or
  scheduling one is recorded as an `Event` in an event trace, so that
  "the validator is scheduled exactly once" and "the transform callback
  is invoked at most once per provider" are statements about traces.
-/

/-- A JS object on the heap: a style element and/or style provider.
`seen` and `processed` are the hidden markers the code writes onto the
object; `attributes` is the element's attribute list (name/value pairs,
in order); `appliedElement` is the `__appliedElement` reference;
`hasGetStyle` says whether the object exposes a `getStyle` method and
`getStyleResult` is what that method currently returns when invoked. -/
structure Obj where
  seen : Bool := false
  processed : Bool := false
  attributes : List (String × String) := []
  appliedElement : Option Nat := none
  hasGetStyle : Bool := false
  getStyleResult : Option Nat := none
  deriving Repr, DecidableEq

/-- The heap of JS objects; a reference is an index into this list. -/
abbrev Heap := List Obj

/-- The module-level (shared) state of `custom-style-interface.js`:
`transformFn` and `validateFn` are the two callback hooks (abstract
function identifiers, `none` = unset), `whenReady` records whether the
HTMLImports `whenReady` scheduler is present, and `readyPromiseCreated`
whether the memoized `readyPromise` has been built. -/
structure Globals where
  transformFn : Option Nat := none
  validateFn : Option Nat := none
  whenReady : Bool := false
  readyPromiseCreated : Bool := false
  deriving Repr, DecidableEq

/-- The per-instance state of a `CustomStyleInterface`:
the `customStyles` sequence (provider references, in insertion order)
and the `enqueued` flag. -/
structure Registry where
  customStyles : List Nat := []
  enqueued : Bool := false
  deriving Repr, DecidableEq

/-- Observable callback events: `schedule fn` records that the validator
`fn` was handed to the readiness scheduler (via `whenReady` or
`readyPromise.then`); `transform fn p target` records that the transform
callback `fn` was invoked with element `target` while processing
provider `p`. -/
inductive Event where
  | schedule (fn : Nat)
  | transform (fn : Nat) (provider : Nat) (target : Nat)
  deriving Repr, DecidableEq

/-- `enqueueDocumentValidation` from the source: no-op if already
enqueued or no validator is configured; otherwise set the flag and hand
the validator to `whenReady` when present, else to the (memoized)
`readyPromise`. Either path schedules `validateFn` once. -/
def enqueueDocumentValidation (g : Globals) (r : Registry) :
    Globals × Registry × List Event :=
  match g.validateFn with
  | none => (g, r, [])
  | some vf =>
    if r.enqueued then (g, r, [])
    else
      let r' := { r with enqueued := true }
      if g.whenReady then (g, r', [Event.schedule vf])
      else ({ g with readyPromiseCreated := true }, r', [Event.schedule vf])

/-- `addCustomStyle` from the source: if the provider does not carry the
seen marker, mark it, append it to `customStyles` and enqueue a
validation; otherwise do nothing. -/
def addCustomStyle (g : Globals) (heap : Heap) (r : Registry) (p : Nat) :
    Globals × Heap × Registry × List Event :=
  match heap[p]? with
  | none => (g, heap, r, [])
  | some obj =>
    if obj.seen then (g, heap, r, [])
    else
      let e := enqueueDocumentValidation g { r with customStyles := r.customStyles ++ [p] }
      (e.1, heap.set p { obj with seen := true }, e.2)

/-- `getStyleForCustomStyle` from the source: if the provider exposes a
`getStyle` method, invoke it and return its result; otherwise the
provider itself is the style element. -/
def getStyleForCustomStyle (heap : Heap) (p : Nat) : Option Nat :=
  match heap[p]? with
  | none => none
  | some obj => if obj.hasGetStyle then obj.getStyleResult else some p

/-- DOM `setAttribute`: replace the value of an existing attribute in
place, or append a new one. -/
def setAttr : List (String × String) → String → String → List (String × String)
  | [], n, v => [(n, v)]
  | (m, w) :: rest, n, v =>
    if m = n then (m, v) :: rest else (m, w) :: setAttr rest n v

/-- DOM `getAttribute` (as `Option`): first value stored under a name. -/
def getAttr (attrs : List (String × String)) (n : String) : Option String :=
  (attrs.find? (fun a => a.1 = n)).map Prod.snd

/-- The attribute-copy loop of `findStyles`: `setAttribute` each
attribute of the source onto the destination, in order. -/
def copyAttrs (src dst : List (String × String)) : List (String × String) :=
  src.foldl (fun d nv => setAttr d nv.1 nv.2) dst

/-- The `appliedStyle` part of the `findStyles` loop body: when the
resolved style `s` (with fields `st`) has an `__appliedElement`
counterpart, copy every attribute of the style onto the counterpart and
make the counterpart the transform target; otherwise the style itself
is the target. -/
def resolveTarget (heap1 : Heap) (s : Nat) (st : Obj) : Heap × Nat :=
  match st.appliedElement with
  | none => (heap1, s)
  | some a =>
    match heap1[a]? with
    | none => (heap1, s)
    | some ap =>
      (heap1.set a { ap with attributes := copyAttrs st.attributes ap.attributes }, a)

/-- One iteration of the `findStyles` loop, on provider `p`: skip if
already processed; resolve the style; if it resolved, mark the provider
processed, copy the attributes onto the `__appliedElement` counterpart
when there is one, and invoke the transform callback (if configured) on
the counterpart when present, else on the style itself. -/
def findStylesStep (g : Globals) (heap : Heap) (p : Nat) : Heap × List Event :=
  match heap[p]? with
  | none => (heap, [])
  | some obj =>
    if obj.processed then (heap, [])
    else
      match getStyleForCustomStyle heap p with
      | none => (heap, [])
      | some s =>
        let heap1 := heap.set p { obj with processed := true }
        match heap1[s]? with
        | none => (heap1, [])
        | some st =>
          let ht := resolveTarget heap1 s st
          (ht.1,
            match g.transformFn with
            | none => []
            | some fn => [Event.transform fn p ht.2])

/-- The `findStyles` loop body over a list of providers, threading the
heap and concatenating the emitted events in order. -/
def findStylesGo (g : Globals) : Heap → List Nat → Heap × List Event
  | heap, [] => (heap, [])
  | heap, p :: rest =>
    ((findStylesGo g (findStylesStep g heap p).1 rest).1,
     (findStylesStep g heap p).2 ++ (findStylesGo g (findStylesStep g heap p).1 rest).2)

/-- `findStyles` from the source: iterate the `customStyles` sequence
once, in insertion order. -/
def findStyles (g : Globals) (heap : Heap) (r : Registry) : Heap × List Event :=
  findStylesGo g heap r.customStyles

/-- The `transformCallback` property getter: reads the module-level
`transformFn`, ignoring the instance it is read from. -/
def transformCallback_get (_self : Registry) (g : Globals) : Option Nat :=
  g.transformFn

/-- The `transformCallback` property setter: writes the module-level
`transformFn`, ignoring the instance it is written through. -/
def transformCallback_set (_self : Registry) (g : Globals) (fn : Option Nat) : Globals :=
  { g with transformFn := fn }

/-- The `validateCallback` property getter: reads the module-level
`validateFn`, ignoring the instance it is read from. -/
def validateCallback_get (_self : Registry) (g : Globals) : Option Nat :=
  g.validateFn

/-- The `validateCallback` property setter: writes the module-level
`validateFn`, ignoring the instance it is written through. -/
def validateCallback_set (_self : Registry) (g : Globals) (fn : Option Nat) : Globals :=
  { g with validateFn := fn }

/-- A combined state: the shared module globals, the shared heap and one
registry instance. -/
structure St where
  g : Globals
  heap : Heap
  r : Registry
  deriving Repr, DecidableEq

/-- The public operations of the registry, as events of a run. -/
inductive Call where
  | enqueue
  | add (p : Nat)
  | find
  | getStyle (p : Nat)
  deriving Repr, DecidableEq

/-- Execute one public operation on a state. `getStyle` is pure: it
returns its result to the caller and leaves every piece of state
unchanged. -/
def doCall (s : St) : Call → St × List Event
  | Call.enqueue =>
    (⟨(enqueueDocumentValidation s.g s.r).1, s.heap,
      (enqueueDocumentValidation s.g s.r).2.1⟩,
     (enqueueDocumentValidation s.g s.r).2.2)
  | Call.add p =>
    (⟨(addCustomStyle s.g s.heap s.r p).1, (addCustomStyle s.g s.heap s.r p).2.1,
      (addCustomStyle s.g s.heap s.r p).2.2.1⟩,
     (addCustomStyle s.g s.heap s.r p).2.2.2)
  | Call.find =>
    (⟨s.g, (findStyles s.g s.heap s.r).1, s.r⟩, (findStyles s.g s.heap s.r).2)
  | Call.getStyle _ => (s, [])

/-- Run a sequence of public operations, concatenating event traces. -/
def runCalls (s : St) : List Call → St × List Event
  | [] => (s, [])
  | c :: cs =>
    ((runCalls (doCall s c).1 cs).1,
     (doCall s c).2 ++ (runCalls (doCall s c).1 cs).2)

/-- Number of validator-scheduling events in a trace. -/
def scheduleCount (evs : List Event) : Nat :=
  (evs.filter (fun e => match e with | Event.schedule _ => true | _ => false)).length

/-- The provider a transform event belongs to, if it is one. -/
def transformProv : Event → Option Nat
  | Event.transform _ p _ => some p
  | _ => none

/-- Number of transform-callback invocations attributed to provider `p`
in a trace. -/
def transformCount (p : Nat) (evs : List Event) : Nat :=
  (evs.filterMap transformProv).count p

/-- The seen marker of object `p` (true when the reference is dangling,
so dangling references are inert). -/
def seenAt (heap : Heap) (p : Nat) : Bool :=
  ((heap[p]?).map Obj.seen).getD true

/-- The processed marker of object `p` (true when the reference is
dangling, so dangling references are inert). -/
def processedAt (heap : Heap) (p : Nat) : Bool :=
  ((heap[p]?).map Obj.processed).getD true

/-- Security deposit for a one-shot boolean flag: 1 while the flag is
still clear, 0 once set. -/
def pcredit (b : Bool) : Nat := if b then 0 else 1

lemma getElem?_some_lt {heap : Heap} {q : Nat} {o : Obj} (hq : heap[q]? = some o) :
    q < heap.length := by
  by_contra h
  rw [List.getElem?_eq_none (Nat.le_of_not_lt h)] at hq
  exact Option.noConfusion hq

lemma getElem?_set_self {heap : Heap} {q : Nat} {o : Obj} (hq : heap[q]? = some o)
    (o' : Obj) : (heap.set q o')[q]? = some o' :=
  List.getElem?_set_eq_of_lt _ (getElem?_some_lt hq)

/-- Overwriting slot `q` with an object that agrees on a field keeps the
field's value at every slot. -/
lemma getElem?_set_map {α : Type} (f : Obj → α) {heap : Heap} {q : Nat} {o : Obj}
    (hq : heap[q]? = some o) (o' : Obj) (hf : f o' = f o) (p : Nat) :
    (((heap.set q o')[p]?).map f) = ((heap[p]?).map f) := by
  by_cases h : q = p
  · subst h
    rw [getElem?_set_self hq, hq]
    simp [hf]
  · rw [List.getElem?_set_ne h]

lemma seenAt_set {heap : Heap} {q : Nat} {o : Obj} (hq : heap[q]? = some o)
    (o' : Obj) (hf : o'.seen = o.seen) (p : Nat) :
    seenAt (heap.set q o') p = seenAt heap p := by
  unfold seenAt
  rw [getElem?_set_map Obj.seen hq o' hf]

lemma processedAt_set {heap : Heap} {q : Nat} {o : Obj} (hq : heap[q]? = some o)
    (o' : Obj) (hf : o'.processed = o.processed) (p : Nat) :
    processedAt (heap.set q o') p = processedAt heap p := by
  unfold processedAt
  rw [getElem?_set_map Obj.processed hq o' hf]

/-- `resolveTarget` only rewrites an attribute list: the seen marker of
every object is unchanged. -/
lemma seenAt_resolveTarget (heap1 : Heap) (s : Nat) (st : Obj) (p : Nat) :
    seenAt (resolveTarget heap1 s st).1 p = seenAt heap1 p := by
  rcases hae : st.appliedElement with _ | a
  · simp [resolveTarget, hae]
  · rcases ha : heap1[a]? with _ | ap
    · simp [resolveTarget, hae, ha]
    · simp only [resolveTarget, hae, ha]
      refine seenAt_set ha _ ?_ p
      rfl

/-- `resolveTarget` only rewrites an attribute list: the processed
marker of every object is unchanged. -/
lemma processedAt_resolveTarget (heap1 : Heap) (s : Nat) (st : Obj) (p : Nat) :
    processedAt (resolveTarget heap1 s st).1 p = processedAt heap1 p := by
  rcases hae : st.appliedElement with _ | a
  · simp [resolveTarget, hae]
  · rcases ha : heap1[a]? with _ | ap
    · simp [resolveTarget, hae, ha]
    · simp only [resolveTarget, hae, ha]
      refine processedAt_set ha _ ?_ p
      rfl

lemma scheduleCount_append (l1 l2 : List Event) :
    scheduleCount (l1 ++ l2) = scheduleCount l1 + scheduleCount l2 := by
  simp [scheduleCount, List.filter_append]

lemma transformCount_append (p : Nat) (l1 l2 : List Event) :
    transformCount p (l1 ++ l2) = transformCount p l1 + transformCount p l2 := by
  simp [transformCount, List.filterMap_append]

/-- A boolean object field that is `true` at `p` stays `true` when any
slot is overwritten by an object with the field `true`. -/
lemma fieldAt_set_true (f : Obj → Bool) {heap : Heap} {q : Nat} {o : Obj}
    (hq : heap[q]? = some o) (o' : Obj) (ho : f o' = true) {p : Nat}
    (h : ((heap[p]?).map f).getD true = true) :
    (((heap.set q o')[p]?).map f).getD true = true := by
  by_cases hqp : q = p
  · subst hqp
    rw [getElem?_set_self hq]
    simp [ho]
  · rw [List.getElem?_set_ne hqp]
    exact h

lemma seenAt_findStylesStep (g : Globals) (heap : Heap) (q p : Nat) :
    seenAt (findStylesStep g heap q).1 p = seenAt heap p := by
  rcases hq : heap[q]? with _ | obj
  · simp [findStylesStep, hq]
  rcases hpr : obj.processed with _ | _
  · rcases hres : getStyleForCustomStyle heap q with _ | s
    · simp [findStylesStep, hq, hpr, hres]
    · rcases hs : (heap.set q { obj with processed := true })[s]? with _ | st
      · simp only [findStylesStep, hq, hpr, hres, hs, Bool.false_eq_true, if_false]
        refine seenAt_set hq _ ?_ p
        rfl
      · simp only [findStylesStep, hq, hpr, hres, hs, Bool.false_eq_true, if_false]
        rw [seenAt_resolveTarget]
        refine seenAt_set hq _ ?_ p
        rfl
  · simp [findStylesStep, hq, hpr]

lemma processedAt_findStylesStep_mono (g : Globals) (heap : Heap) (q p : Nat)
    (h : processedAt heap p = true) :
    processedAt (findStylesStep g heap q).1 p = true := by
  rcases hq : heap[q]? with _ | obj
  · simpa [findStylesStep, hq] using h
  rcases hpr : obj.processed with _ | _
  · rcases hres : getStyleForCustomStyle heap q with _ | s
    · simpa [findStylesStep, hq, hpr, hres] using h
    · rcases hs : (heap.set q { obj with processed := true })[s]? with _ | st
      · simp only [findStylesStep, hq, hpr, hres, hs, Bool.false_eq_true, if_false]
        refine fieldAt_set_true Obj.processed hq _ ?_ h
        rfl
      · simp only [findStylesStep, hq, hpr, hres, hs, Bool.false_eq_true, if_false]
        rw [processedAt_resolveTarget]
        refine fieldAt_set_true Obj.processed hq _ ?_ h
        rfl
  · simpa [findStylesStep, hq, hpr] using h

lemma scheduleCount_findStylesStep (g : Globals) (heap : Heap) (q : Nat) :
    scheduleCount (findStylesStep g heap q).2 = 0 := by
  rcases hq : heap[q]? with _ | obj
  · simp [findStylesStep, hq, scheduleCount]
  rcases hpr : obj.processed with _ | _
  · rcases hres : getStyleForCustomStyle heap q with _ | s
    · simp [findStylesStep, hq, hpr, hres, scheduleCount]
    · rcases hs : (heap.set q { obj with processed := true })[s]? with _ | st
      · simp [findStylesStep, hq, hpr, hres, hs, scheduleCount]
      · rcases htf : g.transformFn with _ | fn
        all_goals simp [findStylesStep, hq, hpr, hres, hs, htf, scheduleCount]
  · simp [findStylesStep, hq, hpr, scheduleCount]

lemma processedAt_findStylesStep_ne (g : Globals) (heap : Heap) (q p : Nat)
    (hne : p ≠ q) :
    processedAt (findStylesStep g heap q).1 p = processedAt heap p := by
  rcases hq : heap[q]? with _ | obj
  · simp [findStylesStep, hq]
  rcases hpr : obj.processed with _ | _
  · rcases hres : getStyleForCustomStyle heap q with _ | s
    · simp [findStylesStep, hq, hpr, hres]
    · rcases hs : (heap.set q { obj with processed := true })[s]? with _ | st
      all_goals
        simp only [findStylesStep, hq, hpr, hres, hs, Bool.false_eq_true, if_false]
      · unfold processedAt
        rw [List.getElem?_set_ne (fun h => hne h.symm)]
      · rw [processedAt_resolveTarget]
        unfold processedAt
        rw [List.getElem?_set_ne (fun h => hne h.symm)]
  · simp [findStylesStep, hq, hpr]

lemma transformCount_findStylesStep_ne (g : Globals) (heap : Heap) (q p : Nat)
    (hne : p ≠ q) :
    transformCount p (findStylesStep g heap q).2 = 0 := by
  rcases hq : heap[q]? with _ | obj
  · simp [findStylesStep, hq, transformCount]
  rcases hpr : obj.processed with _ | _
  · rcases hres : getStyleForCustomStyle heap q with _ | s
    · simp [findStylesStep, hq, hpr, hres, transformCount]
    · rcases hs : (heap.set q { obj with processed := true })[s]? with _ | st
      · simp [findStylesStep, hq, hpr, hres, hs, transformCount]
      · rcases htf : g.transformFn with _ | fn
        · simp [findStylesStep, hq, hpr, hres, hs, htf, transformCount]
        · simp [findStylesStep, hq, hpr, hres, hs, htf, transformCount,
            transformProv, List.count_singleton]
          omega
  · simp [findStylesStep, hq, hpr, transformCount]

lemma findStylesStep_credit (g : Globals) (heap : Heap) (q p : Nat) :
    transformCount p (findStylesStep g heap q).2
      + pcredit (processedAt (findStylesStep g heap q).1 p)
      ≤ pcredit (processedAt heap p) := by
  by_cases hpq : p = q
  · subst hpq
    rcases hq : heap[p]? with _ | obj
    · simp [findStylesStep, hq, transformCount]
    rcases hpr : obj.processed with _ | _
    · have hbefore : processedAt heap p = false := by
        simp [processedAt, hq, hpr]
      rcases hres : getStyleForCustomStyle heap p with _ | s
      · simp [findStylesStep, hq, hpr, hres, transformCount, hbefore, pcredit]
      · have hafter : processedAt (findStylesStep g heap p).1 p = true := by
          rcases hs : (heap.set p { obj with processed := true })[s]? with _ | st
          · simp only [findStylesStep, hq, hpr, hres, hs, Bool.false_eq_true, if_false]
            unfold processedAt
            rw [getElem?_set_self hq]
            rfl
          · simp only [findStylesStep, hq, hpr, hres, hs, Bool.false_eq_true, if_false]
            rw [processedAt_resolveTarget]
            unfold processedAt
            rw [getElem?_set_self hq]
            rfl
        rw [hafter, hbefore]
        have hcnt : transformCount p (findStylesStep g heap p).2 ≤ 1 := by
          rcases hs : (heap.set p { obj with processed := true })[s]? with _ | st
          · simp [findStylesStep, hq, hpr, hres, hs, transformCount]
          · rcases htf : g.transformFn with _ | fn
            · simp [findStylesStep, hq, hpr, hres, hs, htf, transformCount]
            · simp [findStylesStep, hq, hpr, hres, hs, htf, transformCount,
                transformProv, List.count_singleton]
        simpa [pcredit] using hcnt
    · simp [findStylesStep, hq, hpr, transformCount]
  · rw [transformCount_findStylesStep_ne g heap q p hpq,
      processedAt_findStylesStep_ne g heap q p hpq]
    omega

lemma seenAt_findStylesGo (g : Globals) (ps : List Nat) :
    ∀ heap p, seenAt (findStylesGo g heap ps).1 p = seenAt heap p := by
  induction ps with
  | nil => intro heap p; rfl
  | cons q rest ih =>
    intro heap p
    simp only [findStylesGo]
    rw [ih, seenAt_findStylesStep]

lemma processedAt_findStylesGo_mono (g : Globals) (ps : List Nat) :
    ∀ heap p, processedAt heap p = true →
      processedAt (findStylesGo g heap ps).1 p = true := by
  induction ps with
  | nil => intro heap p h; exact h
  | cons q rest ih =>
    intro heap p h
    simp only [findStylesGo]
    exact ih _ p (processedAt_findStylesStep_mono g heap q p h)

lemma scheduleCount_findStylesGo (g : Globals) (ps : List Nat) :
    ∀ heap, scheduleCount (findStylesGo g heap ps).2 = 0 := by
  induction ps with
  | nil => intro heap; rfl
  | cons q rest ih =>
    intro heap
    simp only [findStylesGo]
    rw [scheduleCount_append, scheduleCount_findStylesStep, ih]

lemma findStylesGo_credit (g : Globals) (ps : List Nat) :
    ∀ heap p, transformCount p (findStylesGo g heap ps).2
      + pcredit (processedAt (findStylesGo g heap ps).1 p)
      ≤ pcredit (processedAt heap p) := by
  induction ps with
  | nil =>
    intro heap p
    simp [findStylesGo, transformCount]
  | cons q rest ih =>
    intro heap p
    simp only [findStylesGo]
    rw [transformCount_append]
    have h1 := findStylesStep_credit g heap q p
    have h2 := ih (findStylesStep g heap q).1 p
    omega

lemma enqueueDocumentValidation_of_enqueued (g : Globals) (r : Registry)
    (h : r.enqueued = true) : enqueueDocumentValidation g r = (g, r, []) := by
  unfold enqueueDocumentValidation
  rcases g.validateFn with _ | vf <;> simp [h]

lemma enqueueDocumentValidation_customStyles (g : Globals) (r : Registry) :
    (enqueueDocumentValidation g r).2.1.customStyles = r.customStyles := by
  unfold enqueueDocumentValidation
  rcases hv : g.validateFn with _ | vf
  · rfl
  · by_cases he : r.enqueued <;> by_cases hw : g.whenReady <;> simp [he, hw]

lemma enqueueDocumentValidation_credit (g : Globals) (r : Registry) :
    scheduleCount (enqueueDocumentValidation g r).2.2
      + pcredit (enqueueDocumentValidation g r).2.1.enqueued
      ≤ pcredit r.enqueued := by
  unfold enqueueDocumentValidation
  rcases hv : g.validateFn with _ | vf
  · simp [scheduleCount]
  · by_cases he : r.enqueued <;> by_cases hw : g.whenReady <;>
      simp [he, hw, scheduleCount, pcredit]

lemma transformCount_enqueueDocumentValidation (g : Globals) (r : Registry) (p : Nat) :
    transformCount p (enqueueDocumentValidation g r).2.2 = 0 := by
  unfold enqueueDocumentValidation
  rcases hv : g.validateFn with _ | vf
  · simp [transformCount]
  · by_cases he : r.enqueued <;> by_cases hw : g.whenReady <;>
      simp [he, hw, transformCount, transformProv]

lemma addCustomStyle_heap_processedAt (g : Globals) (heap : Heap) (r : Registry)
    (q p : Nat) :
    processedAt (addCustomStyle g heap r q).2.1 p = processedAt heap p := by
  unfold addCustomStyle
  rcases hq : heap[q]? with _ | obj
  · rfl
  by_cases hs : obj.seen
  · simp [hs]
  · simp only [hs, Bool.false_eq_true, if_false]
    refine processedAt_set hq _ ?_ p
    rfl

lemma addCustomStyle_transformCount (g : Globals) (heap : Heap) (r : Registry)
    (q p : Nat) :
    transformCount p (addCustomStyle g heap r q).2.2.2 = 0 := by
  unfold addCustomStyle
  rcases hq : heap[q]? with _ | obj
  · simp [transformCount]
  by_cases hs : obj.seen
  · simp [hs, transformCount]
  · simp only [hs, Bool.false_eq_true, if_false]
    exact transformCount_enqueueDocumentValidation g _ p

lemma addCustomStyle_schedule_credit (g : Globals) (heap : Heap) (r : Registry)
    (q : Nat) :
    scheduleCount (addCustomStyle g heap r q).2.2.2
      + pcredit (addCustomStyle g heap r q).2.2.1.enqueued
      ≤ pcredit r.enqueued := by
  unfold addCustomStyle
  rcases hq : heap[q]? with _ | obj
  · simp [scheduleCount]
  by_cases hs : obj.seen
  · simp [hs, scheduleCount]
  · simp only [hs, Bool.false_eq_true, if_false]
    exact enqueueDocumentValidation_credit g _

lemma doCall_schedule_credit (s : St) (c : Call) :
    scheduleCount (doCall s c).2 + pcredit (doCall s c).1.r.enqueued
      ≤ pcredit s.r.enqueued := by
  cases c with
  | enqueue => exact enqueueDocumentValidation_credit s.g s.r
  | add p => exact addCustomStyle_schedule_credit s.g s.heap s.r p
  | find =>
    simp only [doCall, findStyles]
    rw [scheduleCount_findStylesGo]
    omega
  | getStyle p => simp [doCall, scheduleCount]

lemma doCall_transform_credit (s : St) (c : Call) (p : Nat) :
    transformCount p (doCall s c).2 + pcredit (processedAt (doCall s c).1.heap p)
      ≤ pcredit (processedAt s.heap p) := by
  cases c with
  | enqueue =>
    simp only [doCall]
    rw [transformCount_enqueueDocumentValidation]
    omega
  | add q =>
    simp only [doCall]
    rw [addCustomStyle_transformCount, addCustomStyle_heap_processedAt]
    omega
  | find => exact findStylesGo_credit s.g s.r.customStyles s.heap p
  | getStyle q => simp [doCall, transformCount]

lemma runCalls_schedule_credit (cs : List Call) :
    ∀ s : St, scheduleCount (runCalls s cs).2 + pcredit (runCalls s cs).1.r.enqueued
      ≤ pcredit s.r.enqueued := by
  induction cs with
  | nil => intro s; simp [runCalls, scheduleCount]
  | cons c rest ih =>
    intro s
    simp only [runCalls]
    rw [scheduleCount_append]
    have h1 := doCall_schedule_credit s c
    have h2 := ih (doCall s c).1
    omega

lemma runCalls_transform_credit (cs : List Call) :
    ∀ (s : St) (p : Nat),
      transformCount p (runCalls s cs).2
        + pcredit (processedAt (runCalls s cs).1.heap p)
        ≤ pcredit (processedAt s.heap p) := by
  induction cs with
  | nil => intro s p; simp [runCalls, transformCount]
  | cons c rest ih =>
    intro s p
    simp only [runCalls]
    rw [transformCount_append]
    have h1 := doCall_transform_credit s c p
    have h2 := ih (doCall s c).1 p
    omega

lemma enqueueDocumentValidation_fires (g : Globals) (r : Registry) (vf : Nat)
    (hv : g.validateFn = some vf) (he : r.enqueued = false) :
    (enqueueDocumentValidation g r).2.2 = [Event.schedule vf]
    ∧ (enqueueDocumentValidation g r).2.1.enqueued = true := by
  unfold enqueueDocumentValidation
  rw [hv]
  by_cases hw : g.whenReady <;> simp [he, hw]

lemma runCalls_no_schedule_of_enqueued (cs : List Call) (s : St)
    (h : s.r.enqueued = true) : scheduleCount (runCalls s cs).2 = 0 := by
  have hc := runCalls_schedule_credit cs s
  rw [h] at hc
  simp [pcredit] at hc
  omega

lemma runCalls_enqueued_mono (cs : List Call) (s : St)
    (h : s.r.enqueued = true) : (runCalls s cs).1.r.enqueued = true := by
  have hc := runCalls_schedule_credit cs s
  rw [h] at hc
  rcases hb : (runCalls s cs).1.r.enqueued with _ | _
  · rw [hb] at hc
    simp [pcredit] at hc
  · rfl

/-- C7: once `enqueued` is set, no registry operation (addCustomStyle,
enqueueDocumentValidation, getStyleForCustomStyle, findStyles) ever
resets it, and no further validation is ever scheduled; over any run,
at most one validation cycle is scheduled for the registry's lifetime. -/
theorem enqueued_flag_never_reset (s : St) (cs : List Call) :
    scheduleCount (runCalls s cs).2 ≤ 1
    ∧ (s.r.enqueued = true →
        (runCalls s cs).1.r.enqueued = true
        ∧ scheduleCount (runCalls s cs).2 = 0) := by
  constructor
  · have hc := runCalls_schedule_credit cs s
    have hb : pcredit s.r.enqueued ≤ 1 := by
      unfold pcredit
      split <;> omega
    omega
  · intro he
    exact ⟨runCalls_enqueued_mono cs s he, runCalls_no_schedule_of_enqueued cs s he⟩

/-- Witness for C7 at a concrete state with the flag already set. -/
theorem enqueued_flag_never_reset_witness :
    scheduleCount (runCalls ⟨⟨some 5, some 7, false, false⟩, [{ seen := false }],
        ⟨[0], true⟩⟩ [Call.enqueue, Call.add 0, Call.find]).2 ≤ 1
    ∧ ((⟨⟨some 5, some 7, false, false⟩, [{ seen := false }], ⟨[0], true⟩⟩ : St).r.enqueued = true →
        (runCalls ⟨⟨some 5, some 7, false, false⟩, [{ seen := false }],
          ⟨[0], true⟩⟩ [Call.enqueue, Call.add 0, Call.find]).1.r.enqueued = true
        ∧ scheduleCount (runCalls ⟨⟨some 5, some 7, false, false⟩, [{ seen := false }],
            ⟨[0], true⟩⟩ [Call.enqueue, Call.add 0, Call.find]).2 = 0) :=
  enqueued_flag_never_reset _ _

/-- C1: with a validate callback configured and the flag clear, a first
call of `enqueueDocumentValidation` (directly, or reached through
`addCustomStyle` of an unseen provider) sets `enqueued` and schedules
the validator; over the whole run that follows, the validator is
scheduled exactly once, and any later direct call on an enqueued
registry is a complete no-op. -/
theorem validator_scheduled_exactly_once (g : Globals) (heap : Heap) (r : Registry)
    (vf : Nat) (c0 : Call) (cs : List Call)
    (hv : g.validateFn = some vf) (he : r.enqueued = false)
    (hc : c0 = Call.enqueue
      ∨ ∃ q obj, c0 = Call.add q ∧ heap[q]? = some obj ∧ obj.seen = false) :
    scheduleCount (runCalls ⟨g, heap, r⟩ (c0 :: cs)).2 = 1
    ∧ (doCall ⟨g, heap, r⟩ c0).1.r.enqueued = true
    ∧ (∀ s' : St, s'.r.enqueued = true → doCall s' Call.enqueue = (s', [])) := by
  have hfirst : scheduleCount (doCall ⟨g, heap, r⟩ c0).2 = 1
      ∧ (doCall ⟨g, heap, r⟩ c0).1.r.enqueued = true := by
    rcases hc with hc | ⟨q, obj, hc, hq, hseen⟩
    · subst hc
      have hf := enqueueDocumentValidation_fires g r vf hv he
      simp only [doCall]
      rw [hf.1]
      exact ⟨rfl, hf.2⟩
    · subst hc
      have hf := enqueueDocumentValidation_fires g
        { r with customStyles := r.customStyles ++ [q] } vf hv he
      simp only [doCall, addCustomStyle, hq, hseen, Bool.false_eq_true, if_false]
      rw [hf.1]
      exact ⟨rfl, hf.2⟩
  refine ⟨?_, hfirst.2, ?_⟩
  · simp only [runCalls]
    rw [scheduleCount_append, hfirst.1,
      runCalls_no_schedule_of_enqueued cs (doCall ⟨g, heap, r⟩ c0).1 hfirst.2]
  · intro s' he'
    obtain ⟨g', heap', r'⟩ := s'
    simp only [doCall]
    rw [enqueueDocumentValidation_of_enqueued g' r' he']

/-- Witness for C1: one direct enqueue followed by further calls. -/
theorem validator_scheduled_exactly_once_witness :
    scheduleCount (runCalls ⟨⟨some 5, some 7, false, false⟩, [{ seen := false }],
        ⟨[], false⟩⟩ [Call.enqueue, Call.enqueue, Call.add 0, Call.find]).2 = 1
    ∧ (doCall ⟨⟨some 5, some 7, false, false⟩, [{ seen := false }],
        ⟨[], false⟩⟩ Call.enqueue).1.r.enqueued = true
    ∧ (∀ s' : St, s'.r.enqueued = true → doCall s' Call.enqueue = (s', [])) :=
  validator_scheduled_exactly_once _ _ _ 7 Call.enqueue [Call.enqueue, Call.add 0, Call.find]
    rfl rfl (Or.inl rfl)

lemma doCall_c2_inv (s : St) (c : Call) (p : Nat)
    (h1 : seenAt s.heap p = true) (h2 : s.r.customStyles.count p = 1) :
    seenAt (doCall s c).1.heap p = true
    ∧ (doCall s c).1.r.customStyles.count p = 1 := by
  cases c with
  | enqueue =>
    refine ⟨h1, ?_⟩
    simp only [doCall]
    rw [enqueueDocumentValidation_customStyles]
    exact h2
  | add q =>
    rcases hq : s.heap[q]? with _ | obj
    · simp only [doCall, addCustomStyle, hq]
      exact ⟨h1, h2⟩
    by_cases hs : obj.seen
    · simp only [doCall, addCustomStyle, hq, hs, if_true]
      exact ⟨h1, h2⟩
    · have hqp : q ≠ p := by
        intro h
        subst h
        unfold seenAt at h1
        rw [hq] at h1
        simp at h1
        exact hs h1
      constructor
      · simp only [doCall, addCustomStyle, hq, hs, Bool.false_eq_true, if_false]
        refine fieldAt_set_true Obj.seen hq _ ?_ h1
        rfl
      · simp only [doCall, addCustomStyle, hq, hs, Bool.false_eq_true, if_false]
        rw [enqueueDocumentValidation_customStyles]
        simp only [List.count_append, h2]
        simp [List.count_singleton', hqp]
  | find =>
    refine ⟨?_, h2⟩
    simp only [doCall, findStyles]
    rw [seenAt_findStylesGo]
    exact h1
  | getStyle q => exact ⟨h1, h2⟩

lemma runCalls_c2_inv (cs : List Call) :
    ∀ (s : St) (p : Nat), seenAt s.heap p = true → s.r.customStyles.count p = 1 →
      seenAt (runCalls s cs).1.heap p = true
      ∧ (runCalls s cs).1.r.customStyles.count p = 1 := by
  induction cs with
  | nil => intro s p h1 h2; exact ⟨h1, h2⟩
  | cons c rest ih =>
    intro s p h1 h2
    have hstep := doCall_c2_inv s c p h1 h2
    simp only [runCalls]
    exact ih (doCall s c).1 p hstep.1 hstep.2

/-- C2: adding an unseen provider appends exactly one entry for it and
marks it seen; from then on, across any further operations (including
repeated `addCustomStyle` of the same provider), the sequence holds
exactly one entry for it, and any `addCustomStyle` of a provider whose
seen marker is set is a complete no-op. -/
theorem addCustomStyle_idempotent (g : Globals) (heap : Heap) (r : Registry)
    (p : Nat) (obj : Obj) (hp : heap[p]? = some obj) (hs : obj.seen = false)
    (hc : r.customStyles.count p = 0) (cs : List Call) :
    (doCall ⟨g, heap, r⟩ (Call.add p)).1.r.customStyles = r.customStyles ++ [p]
    ∧ (runCalls (doCall ⟨g, heap, r⟩ (Call.add p)).1 cs).1.r.customStyles.count p = 1
    ∧ (∀ s' : St, seenAt s'.heap p = true → doCall s' (Call.add p) = (s', [])) := by
  have hnoseen : ¬obj.seen = true := by
    rw [hs]
    exact Bool.false_ne_true
  have hcs : (doCall ⟨g, heap, r⟩ (Call.add p)).1.r.customStyles
      = r.customStyles ++ [p] := by
    simp only [doCall, addCustomStyle, hp, hnoseen, Bool.false_eq_true, if_false]
    exact enqueueDocumentValidation_customStyles g _
  refine ⟨hcs, ?_, ?_⟩
  · have hseen1 : seenAt (doCall ⟨g, heap, r⟩ (Call.add p)).1.heap p = true := by
      simp only [doCall, addCustomStyle, hp, hnoseen, Bool.false_eq_true, if_false]
      unfold seenAt
      rw [getElem?_set_self hp]
      rfl
    have hcnt1 : (doCall ⟨g, heap, r⟩ (Call.add p)).1.r.customStyles.count p = 1 := by
      rw [hcs]
      simp [List.count_append, hc]
    exact (runCalls_c2_inv cs _ p hseen1 hcnt1).2
  · intro s' hseen
    obtain ⟨g', heap', r'⟩ := s'
    rcases hq : heap'[p]? with _ | obj'
    · simp only [doCall, addCustomStyle, hq]
    · have : obj'.seen = true := by
        unfold seenAt at hseen
        rw [hq] at hseen
        simpa using hseen
      simp only [doCall, addCustomStyle, hq, this, if_true]

/-- Witness for C2: concrete registry, add twice then run more calls. -/
theorem addCustomStyle_idempotent_witness :
    (doCall ⟨⟨some 5, some 7, false, false⟩, [{ seen := false }], ⟨[], false⟩⟩
        (Call.add 0)).1.r.customStyles = [] ++ [0]
    ∧ (runCalls (doCall ⟨⟨some 5, some 7, false, false⟩, [{ seen := false }],
        ⟨[], false⟩⟩ (Call.add 0)).1 [Call.add 0, Call.find, Call.add 0]).1.r.customStyles.count 0 = 1
    ∧ (∀ s' : St, seenAt s'.heap 0 = true → doCall s' (Call.add 0) = (s', [])) :=
  addCustomStyle_idempotent ⟨some 5, some 7, false, false⟩ [{ seen := false }]
    ⟨[], false⟩ 0 { seen := false } rfl rfl rfl [Call.add 0, Call.find, Call.add 0]

lemma doCall_customStyles_append (s : St) (c : Call) :
    ∃ t, (doCall s c).1.r.customStyles = s.r.customStyles ++ t := by
  cases c with
  | enqueue =>
    refine ⟨[], ?_⟩
    simp only [doCall]
    rw [enqueueDocumentValidation_customStyles, List.append_nil]
  | add q =>
    rcases hq : s.heap[q]? with _ | obj
    · exact ⟨[], by simp [doCall, addCustomStyle, hq]⟩
    by_cases hs : obj.seen
    · exact ⟨[], by simp [doCall, addCustomStyle, hq, hs]⟩
    · refine ⟨[q], ?_⟩
      simp only [doCall, addCustomStyle, hq, hs, Bool.false_eq_true, if_false]
      exact enqueueDocumentValidation_customStyles s.g _
  | find => exact ⟨[], by simp [doCall]⟩
  | getStyle q => exact ⟨[], by simp [doCall]⟩

lemma runCalls_customStyles_append (cs : List Call) :
    ∀ s : St, ∃ t, (runCalls s cs).1.r.customStyles = s.r.customStyles ++ t := by
  induction cs with
  | nil => intro s; exact ⟨[], by simp [runCalls]⟩
  | cons c rest ih =>
    intro s
    obtain ⟨t1, h1⟩ := doCall_customStyles_append s c
    obtain ⟨t2, h2⟩ := ih (doCall s c).1
    refine ⟨t1 ++ t2, ?_⟩
    simp only [runCalls]
    rw [h2, h1, List.append_assoc]

/-- C3: across any run of registry operations, the transform callback is
invoked at most once per distinct provider; a provider already carrying
the processed marker is never transformed again; and the stored sequence
is never pruned (it only ever grows by appending). -/
theorem transform_at_most_once_per_provider (s : St) (p : Nat) (cs : List Call) :
    transformCount p (runCalls s cs).2 ≤ 1
    ∧ (processedAt s.heap p = true → transformCount p (runCalls s cs).2 = 0)
    ∧ ∃ t, (runCalls s cs).1.r.customStyles = s.r.customStyles ++ t := by
  have hc := runCalls_transform_credit cs s p
  refine ⟨?_, ?_, runCalls_customStyles_append cs s⟩
  · have hb : pcredit (processedAt s.heap p) ≤ 1 := by
      unfold pcredit
      split <;> omega
    omega
  · intro h
    rw [h] at hc
    simp [pcredit] at hc
    omega

/-- Witness for C3 on a concrete two-provider registry run twice. -/
theorem transform_at_most_once_per_provider_witness :
    transformCount 0 (runCalls ⟨⟨some 5, some 7, false, false⟩,
        [{ seen := true }, { seen := true }], ⟨[0, 1], true⟩⟩
        [Call.find, Call.find]).2 ≤ 1
    ∧ ((processedAt ([{ seen := true }, { seen := true }] : Heap) 0 = true →
        transformCount 0 (runCalls ⟨⟨some 5, some 7, false, false⟩,
          [{ seen := true }, { seen := true }], ⟨[0, 1], true⟩⟩
          [Call.find, Call.find]).2 = 0))
    ∧ ∃ t, (runCalls ⟨⟨some 5, some 7, false, false⟩,
        [{ seen := true }, { seen := true }], ⟨[0, 1], true⟩⟩
        [Call.find, Call.find]).1.r.customStyles = [0, 1] ++ t :=
  transform_at_most_once_per_provider
    ⟨⟨some 5, some 7, false, false⟩, [{ seen := true }, { seen := true }], ⟨[0, 1], true⟩⟩
    0 [Call.find, Call.find]

lemma transformProv_findStylesStep (g : Globals) (heap : Heap) (q : Nat) :
    (findStylesStep g heap q).2.filterMap transformProv = []
    ∨ (findStylesStep g heap q).2.filterMap transformProv = [q] := by
  rcases hq : heap[q]? with _ | obj
  · left
    simp [findStylesStep, hq]
  rcases hpr : obj.processed with _ | _
  · rcases hres : getStyleForCustomStyle heap q with _ | s
    · left
      simp [findStylesStep, hq, hpr, hres]
    · rcases hs : (heap.set q { obj with processed := true })[s]? with _ | st
      · left
        simp [findStylesStep, hq, hpr, hres, hs]
      · rcases htf : g.transformFn with _ | fn
        · left
          simp [findStylesStep, hq, hpr, hres, hs, htf]
        · right
          simp [findStylesStep, hq, hpr, hres, hs, htf, transformProv]
  · left
    simp [findStylesStep, hq, hpr]

lemma findStylesGo_provs_sublist (g : Globals) (ps : List Nat) :
    ∀ heap, ((findStylesGo g heap ps).2.filterMap transformProv).Sublist ps := by
  induction ps with
  | nil => intro heap; simp [findStylesGo]
  | cons q rest ih =>
    intro heap
    simp only [findStylesGo, List.filterMap_append]
    rcases transformProv_findStylesStep g heap q with h | h
    · rw [h]
      simp only [List.nil_append]
      exact (ih (findStylesStep g heap q).1).cons q
    · rw [h]
      simp only [List.cons_append, List.nil_append]
      exact (ih (findStylesStep g heap q).1).cons₂ q

/-- C8: `findStyles` traverses the stored sequence once, in insertion
order: the list of providers for which the transform callback fires
during one call, read off the event trace in order, is a sublist of
`customStyles` — so each entry fires at most once per call, and a
provider added earlier is always transformed before one added later. -/
theorem findStyles_insertion_order (g : Globals) (heap : Heap) (r : Registry) :
    ((findStyles g heap r).2.filterMap transformProv).Sublist r.customStyles :=
  findStylesGo_provs_sublist g r.customStyles heap

/-- C6: `getStyleForCustomStyle` invokes the provider's getter and
returns its result when the provider has one, returns the provider
itself otherwise, and as an operation mutates no registry state at all. -/
theorem getStyleForCustomStyle_spec (heap : Heap) (p : Nat) (obj : Obj)
    (hp : heap[p]? = some obj) :
    getStyleForCustomStyle heap p
      = (if obj.hasGetStyle then obj.getStyleResult else some p)
    ∧ (∀ s : St, doCall s (Call.getStyle p) = (s, [])) := by
  constructor
  · simp [getStyleForCustomStyle, hp]
  · intro s
    rfl

/-- Witness for C6 on a getter provider and on a plain style provider. -/
theorem getStyleForCustomStyle_spec_witness :
    (getStyleForCustomStyle [{ hasGetStyle := true, getStyleResult := some 1 }, {}] 0
      = (if ({ hasGetStyle := true, getStyleResult := some 1 } : Obj).hasGetStyle
          then ({ hasGetStyle := true, getStyleResult := some 1 } : Obj).getStyleResult
          else some 0)
    ∧ (∀ s : St, doCall s (Call.getStyle 0) = (s, []))) :=
  getStyleForCustomStyle_spec [{ hasGetStyle := true, getStyleResult := some 1 }, {}] 0
    { hasGetStyle := true, getStyleResult := some 1 } rfl

/-- C5: a provider whose getter currently resolves to nothing is skipped
by `findStyles` — the heap (in particular its processed marker) and the
event trace are untouched — and stays eligible: if the getter later
resolves to a style element, the next `findStyles` call processes it and
(when configured) invokes the transform callback on it. -/
theorem unresolved_provider_skipped (g : Globals) (heap : Heap) (r : Registry)
    (p : Nat) (obj : Obj) (hcs : r.customStyles = [p]) (hp : heap[p]? = some obj)
    (hproc : obj.processed = false) (hg : obj.hasGetStyle = true)
    (hres : obj.getStyleResult = none) :
    findStyles g heap r = (heap, [])
    ∧ processedAt heap p = false
    ∧ (∀ (s : Nat) (st : Obj), s ≠ p → heap[s]? = some st →
        st.appliedElement = none →
        processedAt (findStyles g (heap.set p { obj with getStyleResult := some s }) r).1 p
          = true
        ∧ (∀ fn, g.transformFn = some fn →
            (findStyles g (heap.set p { obj with getStyleResult := some s }) r).2
              = [Event.transform fn p s])) := by
  have hnores : getStyleForCustomStyle heap p = none := by
    simp [getStyleForCustomStyle, hp, hg, hres]
  refine ⟨?_, ?_, ?_⟩
  · simp [findStyles, hcs, findStylesGo, findStylesStep, hp, hproc, hnores]
  · simp [processedAt, hp, hproc]
  · intro s st hsp hst hae
    set heap2 := heap.set p { obj with getStyleResult := some s } with hheap2
    have hp2 : heap2[p]? = some { obj with getStyleResult := some s } :=
      getElem?_set_self hp _
    have hres2 : getStyleForCustomStyle heap2 p = some s := by
      simp [getStyleForCustomStyle, hp2, hg]
    have hs2 : (heap2.set p { { obj with getStyleResult := some s } with
        processed := true })[s]? = some st := by
      rw [List.getElem?_set_ne (fun h => hsp h.symm)]
      rw [hheap2, List.getElem?_set_ne (fun h => hsp h.symm)]
      exact hst
    have hstep : findStylesStep g heap2 p
        = (heap2.set p { { obj with getStyleResult := some s } with processed := true },
           match g.transformFn with
           | none => []
           | some fn => [Event.transform fn p s]) := by
      simp only [findStylesStep, hp2, hproc, Bool.false_eq_true, if_false, hres2, hs2,
        resolveTarget, hae]
    constructor
    · simp only [findStyles, hcs, findStylesGo, hstep]
      unfold processedAt
      rw [getElem?_set_self hp2 _]
      rfl
    · intro fn htf
      simp [findStyles, hcs, findStylesGo, hstep, htf]

/-- Witness for C5: getter yields nothing, then resolves to object 1. -/
theorem unresolved_provider_skipped_witness :
    findStyles ⟨some 5, some 7, false, false⟩
        [{ seen := true, hasGetStyle := true }, {}] ⟨[0], true⟩
      = ([{ seen := true, hasGetStyle := true }, {}], [])
    ∧ processedAt [{ seen := true, hasGetStyle := true }, {}] 0 = false
    ∧ (∀ (s : Nat) (st : Obj), s ≠ 0 →
        ([{ seen := true, hasGetStyle := true }, {}] : Heap)[s]? = some st →
        st.appliedElement = none →
        processedAt (findStyles ⟨some 5, some 7, false, false⟩
          (([{ seen := true, hasGetStyle := true }, {}] : Heap).set 0
            { ({ seen := true, hasGetStyle := true } : Obj) with getStyleResult := some s })
          ⟨[0], true⟩).1 0 = true
        ∧ (∀ fn, (⟨some 5, some 7, false, false⟩ : Globals).transformFn = some fn →
            (findStyles ⟨some 5, some 7, false, false⟩
              (([{ seen := true, hasGetStyle := true }, {}] : Heap).set 0
                { ({ seen := true, hasGetStyle := true } : Obj) with
                  getStyleResult := some s })
              ⟨[0], true⟩).2 = [Event.transform fn 0 s])) :=
  unresolved_provider_skipped ⟨some 5, some 7, false, false⟩
    [{ seen := true, hasGetStyle := true }, {}] ⟨[0], true⟩ 0
    { seen := true, hasGetStyle := true } rfl rfl rfl rfl rfl

lemma getAttr_setAttr_self (d : List (String × String)) (n v : String) :
    getAttr (setAttr d n v) n = some v := by
  induction d with
  | nil => simp [setAttr, getAttr]
  | cons x rest ih =>
    rcases x with ⟨m, w⟩
    by_cases h : m = n
    · simp [setAttr, h, getAttr]
    · simpa [setAttr, h, getAttr] using ih

lemma getAttr_setAttr_ne (d : List (String × String)) (m n v : String)
    (h : m ≠ n) : getAttr (setAttr d m v) n = getAttr d n := by
  induction d with
  | nil => simp [setAttr, getAttr, h]
  | cons x rest ih =>
    rcases x with ⟨m', w⟩
    by_cases h' : m' = m
    · subst h'
      simp [setAttr, getAttr, h]
    · by_cases h'' : m' = n
      · simp [setAttr, h', getAttr, h'', Ne.symm h]
      · simpa [setAttr, h', getAttr, h''] using ih

lemma copyAttrs_cons (x : String × String) (src d : List (String × String)) :
    copyAttrs (x :: src) d = copyAttrs src (setAttr d x.1 x.2) := rfl

lemma getAttr_copyAttrs_not_mem (src : List (String × String)) (n : String)
    (h : n ∉ src.map Prod.fst) :
    ∀ d, getAttr (copyAttrs src d) n = getAttr d n := by
  induction src with
  | nil => intro d; rfl
  | cons x rest ih =>
    intro d
    have hx : x.1 ≠ n := fun hc => h (by simp [hc.symm])
    have hr : n ∉ rest.map Prod.fst := fun hc => h (by simp [hc])
    rw [copyAttrs_cons, ih hr, getAttr_setAttr_ne d x.1 n x.2 hx]

lemma getAttr_copyAttrs (src : List (String × String))
    (hnd : (src.map Prod.fst).Nodup) (nv : String × String) (hmem : nv ∈ src) :
    ∀ d, getAttr (copyAttrs src d) nv.1 = some nv.2 := by
  induction src with
  | nil => cases hmem
  | cons x rest ih =>
    intro d
    have hnd' : x.1 ∉ rest.map Prod.fst ∧ (rest.map Prod.fst).Nodup := by
      rw [List.map_cons, List.nodup_cons] at hnd
      exact hnd
    rcases List.mem_cons.mp hmem with hx | hr
    · subst hx
      rw [copyAttrs_cons, getAttr_copyAttrs_not_mem rest nv.1 hnd'.1,
        getAttr_setAttr_self]
    · exact ih hnd'.2 hr _

/-- C4: when `findStyles` processes an entry whose resolved style has an
`__appliedElement` counterpart, every attribute (name and value) of the
original is copied onto the counterpart, and the transform callback (if
configured) is invoked on the counterpart; with no counterpart the
callback is invoked on the original style itself. -/
theorem findStyles_attribute_propagation (g : Globals) (heap : Heap) (r : Registry)
    (p s : Nat) (obj st : Obj)
    (hcs : r.customStyles = [p]) (hp : heap[p]? = some obj)
    (hproc : obj.processed = false)
    (hres : getStyleForCustomStyle heap p = some s)
    (hst : heap[s]? = some st) :
    (∀ a ap, st.appliedElement = some a → heap[a]? = some ap → a ≠ p →
      ((findStyles g heap r).1[a]?).map Obj.attributes
          = some (copyAttrs st.attributes ap.attributes)
      ∧ ∀ fn, g.transformFn = some fn →
          (findStyles g heap r).2 = [Event.transform fn p a])
    ∧ (st.appliedElement = none → ∀ fn, g.transformFn = some fn →
        (findStyles g heap r).2 = [Event.transform fn p s])
    ∧ (∀ nv, nv ∈ st.attributes → (st.attributes.map Prod.fst).Nodup →
        ∀ dst, getAttr (copyAttrs st.attributes dst) nv.1 = some nv.2) := by
  have hex : ∃ st1 : Obj,
      (heap.set p { obj with processed := true })[s]? = some st1
      ∧ st1.appliedElement = st.appliedElement
      ∧ st1.attributes = st.attributes := by
    by_cases hsp : s = p
    · subst hsp
      rw [hp] at hst
      injection hst with hobj
      subst hobj
      exact ⟨{ obj with processed := true }, getElem?_set_self hp _, rfl, rfl⟩
    · refine ⟨st, ?_, rfl, rfl⟩
      rw [List.getElem?_set_ne (fun h => hsp h.symm)]
      exact hst
  obtain ⟨st1, hst1, hae1, hattr1⟩ := hex
  refine ⟨?_, ?_, ?_⟩
  · intro a ap hae hap hanep
    have hae1' : st1.appliedElement = some a := by rw [hae1, hae]
    have hap1 : (heap.set p { obj with processed := true })[a]? = some ap := by
      rw [List.getElem?_set_ne (fun h => hanep h.symm)]
      exact hap
    have hstep : findStylesStep g heap p
        = ((heap.set p { obj with processed := true }).set a
            { ap with attributes := copyAttrs st.attributes ap.attributes },
           match g.transformFn with
           | none => []
           | some fn => [Event.transform fn p a]) := by
      simp only [findStylesStep, hp, hproc, Bool.false_eq_true, if_false, hres, hst1,
        resolveTarget, hae1', hap1, hattr1]
    constructor
    · simp only [findStyles, hcs, findStylesGo, hstep]
      rw [getElem?_set_self hap1 _]
      rfl
    · intro fn htf
      simp [findStyles, hcs, findStylesGo, hstep, htf]
  · intro hae fn htf
    have hae1' : st1.appliedElement = none := by rw [hae1, hae]
    have hstep : findStylesStep g heap p
        = (heap.set p { obj with processed := true },
           match g.transformFn with
           | none => []
           | some fn => [Event.transform fn p s]) := by
      simp only [findStylesStep, hp, hproc, Bool.false_eq_true, if_false, hres, hst1,
        resolveTarget, hae1']
    simp [findStyles, hcs, findStylesGo, hstep, htf]
  · intro nv hmem hnd dst
    exact getAttr_copyAttrs st.attributes hnd nv hmem dst

/-- Concrete style for the C4 witness: attributes id=a, class=b and an
applied counterpart at slot 1. -/
def c4style : Obj :=
  { seen := true, attributes := [("id", "a"), ("class", "b")], appliedElement := some 1 }

/-- Concrete heap for the C4 witness: the style and its counterpart. -/
def c4heap : Heap := [c4style, {}]

/-- Concrete globals for the C4 witness: both callbacks configured. -/
def c4g : Globals := ⟨some 5, some 7, false, false⟩

/-- Witness for C4: a style with attributes id=a, class=b and an
attribute-less applied counterpart. -/
theorem findStyles_attribute_propagation_witness :
    (∀ a ap, c4style.appliedElement = some a → c4heap[a]? = some ap → a ≠ 0 →
      ((findStyles c4g c4heap ⟨[0], true⟩).1[a]?).map Obj.attributes
          = some (copyAttrs c4style.attributes ap.attributes)
      ∧ ∀ fn, c4g.transformFn = some fn →
          (findStyles c4g c4heap ⟨[0], true⟩).2 = [Event.transform fn 0 a])
    ∧ (c4style.appliedElement = none → ∀ fn, c4g.transformFn = some fn →
        (findStyles c4g c4heap ⟨[0], true⟩).2 = [Event.transform fn 0 0])
    ∧ (∀ nv, nv ∈ c4style.attributes → (c4style.attributes.map Prod.fst).Nodup →
        ∀ dst, getAttr (copyAttrs c4style.attributes dst) nv.1 = some nv.2) :=
  findStyles_attribute_propagation c4g c4heap ⟨[0], true⟩ 0 0 c4style c4style
    rfl rfl rfl rfl rfl

lemma addCustomStyle_of_seen (g : Globals) (heap : Heap) (r : Registry) (p : Nat)
    (obj : Obj) (hq : heap[p]? = some obj) (hs : obj.seen = true) :
    addCustomStyle g heap r p = (g, heap, r, []) := by
  simp [addCustomStyle, hq, hs]

lemma transform_mem_findStylesStep (g : Globals) (heap : Heap) (q : Nat)
    (f pr t : Nat) (h : Event.transform f pr t ∈ (findStylesStep g heap q).2) :
    g.transformFn = some f := by
  rcases hq : heap[q]? with _ | obj
  · simp [findStylesStep, hq] at h
  rcases hpr : obj.processed with _ | _
  · rcases hres : getStyleForCustomStyle heap q with _ | s
    · simp [findStylesStep, hq, hpr, hres] at h
    · rcases hs : (heap.set q { obj with processed := true })[s]? with _ | st
      · simp [findStylesStep, hq, hpr, hres, hs] at h
      · rcases htf : g.transformFn with _ | fn
        · simp [findStylesStep, hq, hpr, hres, hs, htf] at h
        · simp only [findStylesStep, hq, hpr, hres, hs, htf, Bool.false_eq_true,
            if_false, List.mem_singleton] at h
          injection h with h1 h2
          rw [h1]
  · simp [findStylesStep, hq, hpr] at h

lemma transform_mem_findStylesGo (g : Globals) (ps : List Nat) :
    ∀ (heap : Heap) (f pr t : Nat),
      Event.transform f pr t ∈ (findStylesGo g heap ps).2 →
      g.transformFn = some f := by
  induction ps with
  | nil => intro heap f pr t h; simp [findStylesGo] at h
  | cons q rest ih =>
    intro heap f pr t h
    simp only [findStylesGo, List.mem_append] at h
    rcases h with h | h
    · exact transform_mem_findStylesStep g heap q f pr t h
    · exact ih _ f pr t h

/-- C9: `transformCallback` and `validateCallback` are backed by the
module-level variables shared by all instances — a set through one
instance is observed by the getter on any other instance, determines the
callback every transform event of any other instance's `findStyles`
carries, and determines the validator another instance's
`enqueueDocumentValidation` schedules. -/
theorem callbacks_shared_across_instances (inst1 inst2 : Registry) (g : Globals)
    (fn vf : Nat) :
    transformCallback_get inst2 (transformCallback_set inst1 g (some fn)) = some fn
    ∧ validateCallback_get inst2 (validateCallback_set inst1 g (some vf)) = some vf
    ∧ (∀ (heap : Heap) (f pr t : Nat),
        Event.transform f pr t
          ∈ (findStyles (transformCallback_set inst1 g (some fn)) heap inst2).2 →
        f = fn)
    ∧ (inst2.enqueued = false →
        (enqueueDocumentValidation (validateCallback_set inst1 g (some vf)) inst2).2.2
          = [Event.schedule vf]) := by
  refine ⟨rfl, rfl, ?_, ?_⟩
  · intro heap f pr t h
    have := transform_mem_findStylesGo (transformCallback_set inst1 g (some fn))
      inst2.customStyles heap f pr t h
    simp [transformCallback_set] at this
    exact this.symm
  · intro he
    exact (enqueueDocumentValidation_fires _ inst2 vf rfl he).1

/-- Witness for C9 with two distinct concrete instances. -/
theorem callbacks_shared_across_instances_witness :
    transformCallback_get ⟨[1], true⟩
        (transformCallback_set ⟨[], false⟩ ⟨none, none, false, false⟩ (some 3)) = some 3
    ∧ validateCallback_get ⟨[1], true⟩
        (validateCallback_set ⟨[], false⟩ ⟨none, none, false, false⟩ (some 4)) = some 4
    ∧ (∀ (heap : Heap) (f pr t : Nat),
        Event.transform f pr t
          ∈ (findStyles (transformCallback_set ⟨[], false⟩ ⟨none, none, false, false⟩
              (some 3)) heap ⟨[1], true⟩).2 →
        f = 3)
    ∧ ((⟨[1], true⟩ : Registry).enqueued = false →
        (enqueueDocumentValidation
          (validateCallback_set ⟨[], false⟩ ⟨none, none, false, false⟩ (some 4))
          ⟨[1], true⟩).2.2 = [Event.schedule 4]) :=
  callbacks_shared_across_instances ⟨[], false⟩ ⟨[1], true⟩
    ⟨none, none, false, false⟩ 3 4

/-- C10: the seen and processed markers live on the provider objects,
not in per-registry state — after one instance adds a provider, a second
instance's `addCustomStyle` of the same object is a no-op (the provider
only ever enters the first instance's sequence), and a provider whose
processed marker is set is skipped by `findStyles` of every instance. -/
theorem markers_shared_across_instances (g : Globals) (heap : Heap)
    (r1 r2 : Registry) (p : Nat) (obj : Obj)
    (hp : heap[p]? = some obj) (hs : obj.seen = false) :
    addCustomStyle (addCustomStyle g heap r1 p).1 (addCustomStyle g heap r1 p).2.1 r2 p
        = ((addCustomStyle g heap r1 p).1, (addCustomStyle g heap r1 p).2.1, r2, [])
    ∧ (addCustomStyle g heap r1 p).2.2.1.customStyles = r1.customStyles ++ [p]
    ∧ (∀ (heap' : Heap) (r' : Registry), processedAt heap' p = true →
        transformCount p (findStyles g heap' r').2 = 0) := by
  have hnoseen : ¬obj.seen = true := by
    rw [hs]
    exact Bool.false_ne_true
  have hheap1 : (addCustomStyle g heap r1 p).2.1
      = heap.set p { obj with seen := true } := by
    simp only [addCustomStyle, hp, hnoseen, Bool.false_eq_true, if_false]
  refine ⟨?_, ?_, ?_⟩
  · have hseen1 : (addCustomStyle g heap r1 p).2.1[p]? = some { obj with seen := true } := by
      rw [hheap1]
      exact getElem?_set_self hp _
    exact addCustomStyle_of_seen _ _ r2 p _ hseen1 rfl
  · simp only [addCustomStyle, hp, hnoseen, Bool.false_eq_true, if_false]
    exact enqueueDocumentValidation_customStyles g _
  · intro heap' r' hpr
    have hc := findStylesGo_credit g r'.customStyles heap' p
    rw [hpr] at hc
    simp [pcredit] at hc
    exact hc.1

/-- Witness for C10 on a concrete shared provider object. -/
theorem markers_shared_across_instances_witness :
    addCustomStyle (addCustomStyle ⟨some 5, some 7, false, false⟩ [{ seen := false }]
          ⟨[], false⟩ 0).1
        (addCustomStyle ⟨some 5, some 7, false, false⟩ [{ seen := false }]
          ⟨[], false⟩ 0).2.1 ⟨[9], true⟩ 0
      = ((addCustomStyle ⟨some 5, some 7, false, false⟩ [{ seen := false }]
          ⟨[], false⟩ 0).1,
         (addCustomStyle ⟨some 5, some 7, false, false⟩ [{ seen := false }]
          ⟨[], false⟩ 0).2.1, ⟨[9], true⟩, [])
    ∧ (addCustomStyle ⟨some 5, some 7, false, false⟩ [{ seen := false }]
        ⟨[], false⟩ 0).2.2.1.customStyles = [] ++ [0]
    ∧ (∀ (heap' : Heap) (r' : Registry), processedAt heap' 0 = true →
        transformCount 0 (findStyles ⟨some 5, some 7, false, false⟩ heap' r').2 = 0) :=
  markers_shared_across_instances ⟨some 5, some 7, false, false⟩ [{ seen := false }]
    ⟨[], false⟩ ⟨[9], true⟩ 0 { seen := false } rfl rfl
